import Mathlib

/-!
# Verification of the b-cleaner token-cleaning pipeline

Shallow embedding of `src/cleaners.rs` and `src/bindings/python.rs`.
A Rust `&str` is modelled as a `List Char` (its sequence of Unicode scalar
values); `std::borrow::Cow<'a, str>` is modelled as an ownership-tagged
value.  All definitions follow the source; external library functions
(`unidecode::unidecode`, `char::to_lowercase`, `str::trim`) are modelled by
explicit tables/definitions matching their documented behaviour, restricted
to the characters exercised in this development.
-/

namespace BCleaner

/-- A token: the character sequence of a Rust `str`. -/
abbrev Token := List Char

/-- Character list of a string literal (convenience for concrete inputs). -/
def str (s : String) : Token := s.data

/-- `std::borrow::Cow<'a, str>`: either a borrowed view into the caller's
buffer or an owned string (`cleaners.rs` line 56). -/
inductive Cow where
  | borrowed (s : Token)
  | owned (s : Token)
deriving DecidableEq

/-- The string content of a `Cow` (what `Deref`/`PartialEq` see in Rust). -/
def content : Cow → Token
  | .borrowed s => s
  | .owned s => s

/-- Whether a `Cow` carries the `Owned` tag. -/
def isOwned : Cow → Bool
  | .borrowed _ => false
  | .owned _ => true

/-! ## Character classification (Rust `char` ASCII predicates) -/

/-- Rust `char::is_ascii_punctuation`: the four ASCII punctuation ranges
`!..\x2F`, `:..@`, `[..\x60`, `\x7b..~`. -/
def is_ascii_punctuation (c : Char) : Bool :=
  let v := c.toNat
  (0x21 ≤ v && v ≤ 0x2F) || (0x3A ≤ v && v ≤ 0x40) ||
  (0x5B ≤ v && v ≤ 0x60) || (0x7B ≤ v && v ≤ 0x7E)

/-- Rust `char::is_ascii_whitespace`: space, horizontal tab, line feed,
form feed, carriage return. -/
def is_ascii_whitespace (c : Char) : Bool :=
  c = ' ' || c = '\t' || c = '\n' || c = '\x0C' || c = '\r'

/-- Rust `char::is_ascii`: code point at most `0x7F`. -/
def isAscii (c : Char) : Bool := c.toNat ≤ 0x7F

/-- Rust `char::is_whitespace` (the Unicode `White_Space` property), used by
`str::trim`. -/
def isRustWhitespace (c : Char) : Bool :=
  let v := c.toNat
  (9 ≤ v && v ≤ 13) || v = 0x20 || v = 0x85 || v = 0xA0 ||
  v = 0x1680 || (0x2000 ≤ v && v ≤ 0x200A) || v = 0x2028 ||
  v = 0x2029 || v = 0x202F || v = 0x205F || v = 0x3000

/-- Number of bytes of a scalar value in UTF-8; `str::len` sums these. -/
def charUtf8Size (c : Char) : Nat :=
  if c.toNat ≤ 0x7F then 1
  else if c.toNat ≤ 0x7FF then 2
  else if c.toNat ≤ 0xFFFF then 3
  else 4

/-- Rust `str::len`: the UTF-8 byte length of a token. -/
def byteLen (t : Token) : Nat := (t.map charUtf8Size).sum

/-! ## External library functions used by the transforms -/

/-- ASCII-only lowercasing of one character, as performed per character by
`String::make_ascii_lowercase`. -/
def asciiToLower (c : Char) : Char :=
  if 65 ≤ c.toNat && c.toNat ≤ 90 then Char.ofNat (c.toNat + 32) else c

/-- Rust `String::make_ascii_lowercase` (in-place ASCII fold). -/
def make_ascii_lowercase (t : Token) : Token := t.map asciiToLower

/-- One character of Rust `str::to_lowercase` (Unicode simple lowercase),
restricted to the characters exercised in this development: the full ASCII
range plus the accented letters appearing below; other characters are left
unchanged. -/
def rustCharToLower (c : Char) : Char :=
  if isAscii c then asciiToLower c
  else if c = 'É' then 'é'
  else if c = 'À' then 'à'
  else if c = 'Æ' then 'æ'
  else c

/-- Rust `str::to_lowercase` on the modelled character range. -/
def to_lowercase (t : Token) : Token := t.map rustCharToLower

/-- One character of the external `unidecode` crate's transliteration.
The crate guarantees pure-ASCII output; its documentation includes
`unidecode("Æneid") == "AEneid"`; unmapped characters yield the empty
string.  The table is the crate's documented mapping restricted to the
characters exercised in this development. -/
def unidecodeChar (c : Char) : Token :=
  if isAscii c then [c]
  else if c = 'Æ' then str "AE"
  else if c = 'æ' then str "ae"
  else if c = 'É' then str "E"
  else if c = 'é' then str "e"
  else if c = 'è' then str "e"
  else if c = 'à' then str "a"
  else if c = 'ç' then str "c"
  else if c = '²' then str "2"
  else if c = 'ß' then str "ss"
  else []

/-- The external `unidecode::unidecode` transliteration (concatenation of
the per-character images). -/
def unidecode (t : Token) : Token := (t.map unidecodeChar).flatten

/-- Rust `str::trim`: drop `char::is_whitespace` characters from both
ends. -/
def rustTrim (t : Token) : Token :=
  ((t.dropWhile isRustWhitespace).reverse.dropWhile isRustWhitespace).reverse

/-! ## Primitive per-token transforms (`cleaners.rs` lines 404–478) -/

/-- `token_to_lowercase` (`cleaners.rs` lines 404–411): if any ASCII
alphabetic character is not ASCII-lowercase, a borrowed token is replaced by
an owned `to_lowercase` copy, while an owned token is folded in place with
`make_ascii_lowercase`. -/
def token_to_lowercase (t : Cow) : Cow :=
  if ((content t).filter (fun c => c.isAlpha)).any (fun c => !c.isLower) then
    match t with
    | .borrowed s => .owned (to_lowercase s)
    | .owned s => .owned (make_ascii_lowercase s)
  else t

/-- `token_trim` (`cleaners.rs` lines 413–429).  The source matches on
`(chars.last(), chars.first())` with the arm `(Some(c), _)` before
`(_, Some(c))`, so for a nonempty token only the *last* character is ever
examined; the first-character arm is reachable only in the impossible
`(None, Some _)` case.  The match below reproduces the source arm order. -/
def token_trim (t : Cow) : Cow :=
  match (content t).getLast?, (content t).head? with
  | none, none => t
  | some c, _ =>
      if is_ascii_whitespace c then .owned (rustTrim (content t)) else t
  | _, some c =>
      if is_ascii_whitespace c then .owned (rustTrim (content t)) else t

/-- `unidecode_token` (`cleaners.rs` lines 445–449): transliterate only when
some character is non-ASCII; `.into()` on the resulting `String` always
produces an `Owned` value. -/
def unidecode_token (t : Cow) : Cow :=
  if (content t).any (fun c => !(isAscii c)) then .owned (unidecode (content t))
  else t

/-- `remove_token_digit_and_punctuation` (`cleaners.rs` lines 466–470).
A character survives iff it is neither an ASCII digit nor ASCII punctuation,
or it is a hyphen whose *character* index is positive and below the token's
*byte* length `token.len()` (the comparison the source actually writes). -/
def remove_token_digit_and_punctuation (t : Cow) : Cow :=
  if (content t).any (fun c => c.isDigit || is_ascii_punctuation c) then
    .owned ((((content t).enum.filter (fun ic =>
        (!is_ascii_punctuation ic.2 && !ic.2.isDigit) ||
        (ic.2 = '-' && 0 < ic.1 && ic.1 < byteLen (content t)))).map
      (fun ic => ic.2)))
  else t

/-- The iterator state of `remove_token_non_ascii_chars`: `chars.any` in the
source consumes the iterator up to and including the first non-ASCII
character, so the subsequent `chars.filter` sees only the remainder.
Returns the characters after the first non-ASCII one, or `none` when every
character is ASCII. -/
def splitAtNonAscii : Token → Option Token
  | [] => none
  | c :: cs => if isAscii c then splitAtNonAscii cs else some cs

/-- `remove_token_non_ascii_chars` (`cleaners.rs` lines 473–478), including
the source's reuse of the consumed `chars` iterator. -/
def remove_token_non_ascii_chars (t : Cow) : Cow :=
  match splitAtNonAscii (content t) with
  | none => t
  | some rest => .owned (rest.filter (fun c => isAscii c))

/-! ## Sequence transforms (`cleaners.rs` lines 432–505) -/

/-- Rust `Iterator::position`: index of the first element satisfying `p`. -/
def position (p : α → Bool) : List α → Option Nat
  | [] => none
  | a :: as => if p a then some 0 else (position p as).map (fun n => n + 1)

/-- Whether a token ends with the single character `c`
(Rust `str::ends_with(char)`). -/
def endsWithChar (c : Char) (t : Token) : Bool := t.getLast? = some c

/-- `tokens_split_at_strong_punctuation` (`cleaners.rs` lines 432–442):
truncate before the first token ending with `.`, `:`, `?` or `!`. -/
def tokens_split_at_strong_punctuation (ts : List Cow) : List Cow :=
  match position (fun t => endsWithChar '.' (content t) ||
      endsWithChar ':' (content t) || endsWithChar '?' (content t) ||
      endsWithChar '!' (content t)) ts with
  | none => ts
  | some i => ts.take i

/-- Loop body of `remove_tokens_between_delimiters`, with explicit fuel.
Each iteration that recurses removes at least one token, so fuel equal to
the list length (as supplied by `remove_tokens_between_delimiters`) never
runs out; `rtbdAux_fuel_irrelevant` below makes this precise. -/
def rtbdAux (fuel : Nat) (d : Token × Token) (ts : List Cow) : List Cow :=
  match fuel with
  | 0 => ts
  | fuel + 1 =>
    match position (fun t => d.1.isPrefixOf (content t)) ts with
    | none => ts
    | some s =>
      match position (fun t => d.2.isSuffixOf (content t)) (ts.drop s) with
      | none => ts
      | some e => rtbdAux fuel d (ts.take s ++ ts.drop (s + e + 1))

/-- `remove_tokens_between_delimiters` (`cleaners.rs` lines 497–505):
repeatedly find the first token starting with `d.1`, scan from it
(inclusive) for the first token ending with `d.2`, and drain the inclusive
range; stop when the first start token has no matching end. -/
def remove_tokens_between_delimiters (d : Token × Token) (ts : List Cow) :
    List Cow :=
  rtbdAux ts.length d ts

/-- The `retain` on `cleaners.rs` lines 131 and 266: keep a token unless its
byte length is `≤` the configured threshold. -/
def min_length_retain (n : Nat) (ts : List Cow) : List Cow :=
  ts.filter (fun t => !(decide (byteLen (content t) ≤ n)))

/-- The final `retain(|token| !token.is_empty())` of every `clean`. -/
def purge_empty_tokens (ts : List Cow) : List Cow :=
  ts.filter (fun t => !(content t).isEmpty)

/-! ## Pipeline variants -/

/-- Per-token primitive pipeline of `TextCleaner::clean` and
`TitleCleaner::clean` (`cleaners.rs` lines 133–142 and 268–277). -/
def pipeText (t : Cow) : Cow :=
  token_trim (remove_token_digit_and_punctuation
    (remove_token_non_ascii_chars (unidecode_token (token_to_lowercase t))))

/-- Per-token primitive pipeline of `AuthorCleaner::clean`
(`cleaners.rs` lines 370–380): the digit/punctuation strip runs before
transliteration. -/
def pipeAuthor (t : Cow) : Cow :=
  token_trim (remove_token_non_ascii_chars
    (unidecode_token (remove_token_digit_and_punctuation
      (token_to_lowercase t))))

/-- `TextCleaner` (`cleaners.rs` line 55). -/
structure TextCleaner where
  tokens : List Cow
  token_min_lenght : Nat
deriving DecidableEq

/-- `TextCleaner::new` (`cleaners.rs` lines 82–90): zero-copy construction,
default threshold 3. -/
def TextCleaner.new (input : List Token) : TextCleaner :=
  { tokens := input.map Cow.borrowed, token_min_lenght := 3 }

/-- `TextCleaner::clean` (`cleaners.rs` lines 128–148). -/
def TextCleaner.clean (c : TextCleaner) : TextCleaner :=
  let ts := min_length_retain c.token_min_lenght c.tokens
  { c with tokens := purge_empty_tokens (ts.map pipeText) }

/-- `TitleCleaner` (`cleaners.rs` line 183). -/
structure TitleCleaner where
  tokens : List Cow
  token_min_lenght : Nat
deriving DecidableEq

/-- `TitleCleaner::new` (`cleaners.rs` lines 211–219). -/
def TitleCleaner.new (input : List Token) : TitleCleaner :=
  { tokens := input.map Cow.borrowed, token_min_lenght := 3 }

/-- `TitleCleaner::clean` (`cleaners.rs` lines 257–283): subtitle
truncation, then `()` and `[]` span removal, then the length filter and the
per-token primitives, then the empty purge. -/
def TitleCleaner.clean (c : TitleCleaner) : TitleCleaner :=
  let ts := tokens_split_at_strong_punctuation c.tokens
  let ts := remove_tokens_between_delimiters (str "(", str ")") ts
  let ts := remove_tokens_between_delimiters (str "[", str "]") ts
  let ts := min_length_retain c.token_min_lenght ts
  { c with tokens := purge_empty_tokens (ts.map pipeText) }

/-- `AuthorCleaner` (`cleaners.rs` line 315): no length threshold. -/
structure AuthorCleaner where
  tokens : List Cow
deriving DecidableEq

/-- `AuthorCleaner::new` (`cleaners.rs` lines 340–347). -/
def AuthorCleaner.new (input : List Token) : AuthorCleaner :=
  { tokens := input.map Cow.borrowed }

/-- `AuthorCleaner::clean` (`cleaners.rs` lines 366–386). -/
def AuthorCleaner.clean (c : AuthorCleaner) : AuthorCleaner :=
  let ts := remove_tokens_between_delimiters (str "(", str ")") c.tokens
  let ts := remove_tokens_between_delimiters (str "[", str "]") ts
  { c with tokens := purge_empty_tokens (ts.map pipeAuthor) }

/-! ## Foreign-language binding entry points
(`src/bindings/python.rs` lines 8–22) -/

/-- `clean_title`: construct a `TitleCleaner` over the inputs, clean, and
read the resulting strings. -/
def clean_title (input : List Token) : List Token :=
  ((TitleCleaner.new input).clean).tokens.map content

/-- `clean_author`: construct an `AuthorCleaner` over the inputs, clean, and
read the resulting strings. -/
def clean_author (input : List Token) : List Token :=
  ((AuthorCleaner.new input).clean).tokens.map content

/-- A token in canonical (already-cleaned) form for threshold `n`: byte
length above the threshold, pure ASCII with no ASCII uppercase letter and
no ASCII digit, ASCII punctuation restricted to hyphens in non-leading
position, and with a last character that is not ASCII whitespace.  The
content of such a token is a fixed point of every stage of `clean()`. -/
def canonicalToken (n : Nat) (t : Token) : Bool :=
  decide (n < byteLen t) &&
  t.all (fun c => isAscii c && !c.isDigit && !(c.isAlpha && !c.isLower)) &&
  t.enum.all (fun ic =>
    !is_ascii_punctuation ic.2 || (ic.2 = '-' && decide (0 < ic.1))) &&
  (match t.getLast? with
   | none => true
   | some c => !is_ascii_whitespace c)

/-! ## Helper lemmas -/

theorem position_lt_length {p : α → Bool} {l : List α} {i : Nat}
    (h : position p l = some i) : i < l.length := by
  induction l generalizing i with
  | nil => simp [position] at h
  | cons a as ih =>
    rw [position] at h
    by_cases hp : p a
    · simp [hp] at h
      simp only [List.length_cons]
      omega
    · simp [hp] at h
      cases hq : position p as with
      | none => rw [hq] at h; simp at h
      | some j =>
        rw [hq] at h
        simp at h
        have := ih hq
        simp only [List.length_cons]
        omega

theorem position_eq_none {p : α → Bool} {l : List α}
    (h : ∀ a ∈ l, p a = false) : position p l = none := by
  induction l with
  | nil => rfl
  | cons a as ih =>
    rw [position, if_neg]
    · rw [ih fun b hb => h b (List.mem_cons_of_mem a hb)]
      rfl
    · simp [h a (List.mem_cons_self a as)]

theorem rtbdAux_nil (f : Nat) (d : Token × Token) : rtbdAux f d [] = [] := by
  cases f <;> simp [rtbdAux, position]

theorem rtbdAux_step_length {d : Token × Token} {ts : List Cow} {s e : Nat}
    (h1 : position (fun t => d.1.isPrefixOf (content t)) ts = some s)
    (h2 : position (fun t => d.2.isSuffixOf (content t)) (ts.drop s) = some e) :
    (ts.take s ++ ts.drop (s + e + 1)).length + 1 ≤ ts.length := by
  have hs := position_lt_length h1
  have he := position_lt_length h2
  rw [List.length_drop] at he
  simp [List.length_append, List.length_take, List.length_drop]
  omega

theorem rtbdAux_succ_no_start {f : Nat} {d : Token × Token} {ts : List Cow}
    (h : position (fun t => d.1.isPrefixOf (content t)) ts = none) :
    rtbdAux (f + 1) d ts = ts := by
  simp only [rtbdAux, h]

theorem rtbdAux_succ_no_end {f : Nat} {d : Token × Token} {ts : List Cow}
    {s : Nat}
    (h1 : position (fun t => d.1.isPrefixOf (content t)) ts = some s)
    (h2 : position (fun t => d.2.isSuffixOf (content t)) (ts.drop s) = none) :
    rtbdAux (f + 1) d ts = ts := by
  simp only [rtbdAux, h1, h2]

theorem rtbdAux_succ_step {f : Nat} {d : Token × Token} {ts : List Cow}
    {s e : Nat}
    (h1 : position (fun t => d.1.isPrefixOf (content t)) ts = some s)
    (h2 : position (fun t => d.2.isSuffixOf (content t)) (ts.drop s) = some e) :
    rtbdAux (f + 1) d ts = rtbdAux f d (ts.take s ++ ts.drop (s + e + 1)) := by
  simp only [rtbdAux, h1, h2]

theorem rtbdAux_fuel_irrelevant (d : Token × Token) :
    ∀ f1 f2 (ts : List Cow), ts.length ≤ f1 → ts.length ≤ f2 →
    rtbdAux f1 d ts = rtbdAux f2 d ts := by
  intro f1
  induction f1 with
  | zero =>
    intro f2 ts h1 _
    have : ts = [] := List.eq_nil_of_length_eq_zero (Nat.le_zero.mp h1)
    subst this
    rw [rtbdAux_nil, rtbdAux_nil]
  | succ k ih =>
    intro f2 ts h1 h2
    cases f2 with
    | zero =>
      have : ts = [] := List.eq_nil_of_length_eq_zero (Nat.le_zero.mp h2)
      subst this
      rw [rtbdAux_nil, rtbdAux_nil]
    | succ m =>
      cases hs : position (fun t => d.1.isPrefixOf (content t)) ts with
      | none => rw [rtbdAux_succ_no_start hs, rtbdAux_succ_no_start hs]
      | some s =>
        cases he : position (fun t => d.2.isSuffixOf (content t)) (ts.drop s) with
        | none => rw [rtbdAux_succ_no_end hs he, rtbdAux_succ_no_end hs he]
        | some e =>
          rw [rtbdAux_succ_step hs he, rtbdAux_succ_step hs he]
          have hlen := rtbdAux_step_length hs he
          exact ih m _ (by omega) (by omega)

theorem rtbdAux_sublist (f : Nat) (d : Token × Token) (ts : List Cow) :
    (rtbdAux f d ts).Sublist ts := by
  induction f generalizing ts with
  | zero => exact List.Sublist.refl ts
  | succ k ih =>
    cases hs : position (fun t => d.1.isPrefixOf (content t)) ts with
    | none => rw [rtbdAux_succ_no_start hs]
    | some s =>
      cases he : position (fun t => d.2.isSuffixOf (content t)) (ts.drop s) with
      | none => rw [rtbdAux_succ_no_end hs he]
      | some e =>
        rw [rtbdAux_succ_step hs he]
        refine (ih _).trans ?_
        have hdrop : (ts.drop (s + e + 1)).Sublist (ts.drop s) := by
          have heq : ts.drop (s + e + 1) = (ts.drop s).drop (e + 1) := by
            rw [List.drop_drop, Nat.add_assoc]
          rw [heq]
          exact List.drop_sublist _ _
        have := hdrop.append_left (ts.take s)
        rwa [List.take_append_drop] at this

theorem rtbd_no_start {d : Token × Token} {ts : List Cow}
    (h : position (fun t => d.1.isPrefixOf (content t)) ts = none) :
    remove_tokens_between_delimiters d ts = ts := by
  rw [remove_tokens_between_delimiters]
  cases hl : ts.length with
  | zero =>
    have hnil : ts = [] := List.eq_nil_of_length_eq_zero hl
    subst hnil
    exact rtbdAux_nil _ _
  | succ k =>
    exact rtbdAux_succ_no_start h

theorem rtbd_no_end {d : Token × Token} {ts : List Cow} {s : Nat}
    (h1 : position (fun t => d.1.isPrefixOf (content t)) ts = some s)
    (h2 : position (fun t => d.2.isSuffixOf (content t)) (ts.drop s) = none) :
    remove_tokens_between_delimiters d ts = ts := by
  rw [remove_tokens_between_delimiters]
  cases hl : ts.length with
  | zero =>
    have hnil : ts = [] := List.eq_nil_of_length_eq_zero hl
    subst hnil
    exact rtbdAux_nil _ _
  | succ k =>
    exact rtbdAux_succ_no_end h1 h2

theorem rtbd_step {d : Token × Token} {ts : List Cow} {s e : Nat}
    (h1 : position (fun t => d.1.isPrefixOf (content t)) ts = some s)
    (h2 : position (fun t => d.2.isSuffixOf (content t)) (ts.drop s) = some e) :
    remove_tokens_between_delimiters d ts =
      remove_tokens_between_delimiters d (ts.take s ++ ts.drop (s + e + 1)) := by
  rw [remove_tokens_between_delimiters, remove_tokens_between_delimiters]
  cases hl : ts.length with
  | zero =>
    have hnil : ts = [] := List.eq_nil_of_length_eq_zero hl
    subst hnil
    simp [position] at h1
  | succ k =>
    rw [rtbdAux_succ_step h1 h2]
    have hlen := rtbdAux_step_length h1 h2
    exact rtbdAux_fuel_irrelevant _ _ _ _ (by omega) (by omega)

theorem charUtf8Size_pos (c : Char) : 1 ≤ charUtf8Size c := by
  unfold charUtf8Size
  split
  · omega
  · split
    · omega
    · split <;> omega

theorem length_le_byteLen (t : Token) : t.length ≤ byteLen t := by
  induction t with
  | nil => simp [byteLen]
  | cons c cs ih =>
    have h1 := charUtf8Size_pos c
    simp only [byteLen, List.map_cons, List.sum_cons, List.length_cons]
    simp only [byteLen] at ih
    omega

theorem byteLen_ascii {t : Token} (h : t.all (fun c => isAscii c) = true) :
    byteLen t = t.length := by
  induction t with
  | nil => simp [byteLen]
  | cons c cs ih =>
    rw [List.all_cons, Bool.and_eq_true] at h
    have hc : c.toNat ≤ 0x7F := by
      have h1 := h.1
      rw [isAscii] at h1
      exact of_decide_eq_true h1
    simp only [byteLen, List.map_cons, List.sum_cons, List.length_cons]
    rw [charUtf8Size, if_pos hc]
    simp only [byteLen] at ih
    rw [ih h.2]
    omega

theorem content_borrowed (s : Token) : content (Cow.borrowed s) = s := rfl

theorem content_owned (s : Token) : content (Cow.owned s) = s := rfl

theorem map_eq_self_mem {α : Type} {f : α → α} {l : List α}
    (h : l.map f = l) : ∀ c ∈ l, f c = c := by
  induction l with
  | nil =>
    intro c hc
    simp at hc
  | cons a as ih =>
    intro c hc
    rw [List.map_cons] at h
    injection h with h1 h2
    rcases List.mem_cons.mp hc with rfl | hmem
    · exact h1
    · exact ih h2 c hmem

theorem isUpper_iff_toNat (c : Char) :
    c.isUpper = true ↔ 65 ≤ c.toNat ∧ c.toNat ≤ 90 := by
  simp [Char.isUpper, Char.toNat, UInt32.le_def, BitVec.le_def, UInt32.toNat]

theorem isLower_iff_toNat (c : Char) :
    c.isLower = true ↔ 97 ≤ c.toNat ∧ c.toNat ≤ 122 := by
  simp [Char.isLower, Char.toNat, UInt32.le_def, BitVec.le_def, UInt32.toNat]

theorem toNat_ofNat_valid {n : Nat} (h : n < 0xD800) :
    (Char.ofNat n).toNat = n := by
  have hv : n.isValidChar := Or.inl h
  simp [Char.ofNat, hv, Char.ofNatAux, Char.toNat, UInt32.toNat,
    BitVec.toNat_ofNatLt]

theorem asciiToLower_ne_of_upper {c : Char} (h : c.isUpper = true) :
    asciiToLower c ≠ c := by
  have hn := (isUpper_iff_toNat c).mp h
  have hcond : (65 ≤ c.toNat && c.toNat ≤ 90) = true := by
    rw [Bool.and_eq_true]
    exact ⟨decide_eq_true hn.1, decide_eq_true hn.2⟩
  rw [asciiToLower, if_pos hcond]
  intro heq
  have h2 := congrArg Char.toNat heq
  rw [toNat_ofNat_valid (by omega)] at h2
  omega

theorem to_lowercase_ne {s : Token}
    (h : (s.filter (fun c => c.isAlpha)).any (fun c => !c.isLower) = true) :
    to_lowercase s ≠ s := by
  rw [List.any_eq_true] at h
  obtain ⟨c, hcf, hcl⟩ := h
  rw [List.mem_filter] at hcf
  obtain ⟨hcs, hca⟩ := hcf
  have hup : c.isUpper = true := by
    unfold Char.isAlpha at hca
    rw [Bool.or_eq_true] at hca
    rcases hca with h1 | h1
    · exact h1
    · rw [h1] at hcl
      simp at hcl
  intro heq
  rw [to_lowercase] at heq
  have hfix := map_eq_self_mem heq c hcs
  have hascii : isAscii c = true := by
    have hn := (isUpper_iff_toNat c).mp hup
    rw [isAscii]
    exact decide_eq_true (by omega)
  rw [rustCharToLower, if_pos hascii] at hfix
  exact asciiToLower_ne_of_upper hup hfix

theorem unidecodeChar_ascii (c : Char) :
    (unidecodeChar c).all (fun a => isAscii a) = true := by
  by_cases h : isAscii c = true
  · simp [unidecodeChar, h]
  · rw [unidecodeChar, if_neg h]
    repeat' split
    all_goals decide

theorem unidecode_ascii (t : Token) :
    (unidecode t).all (fun a => isAscii a) = true := by
  rw [List.all_eq_true]
  intro c hc
  rw [unidecode, List.mem_flatten] at hc
  obtain ⟨l, hl, hcl⟩ := hc
  rw [List.mem_map] at hl
  obtain ⟨a, _, rfl⟩ := hl
  exact List.all_eq_true.mp (unidecodeChar_ascii a) c hcl

theorem splitAtNonAscii_eq_none (t : Token) :
    splitAtNonAscii t = none ↔ t.all (fun c => isAscii c) = true := by
  induction t with
  | nil => simp [splitAtNonAscii]
  | cons c cs ih =>
    by_cases h : isAscii c = true
    · simp [splitAtNonAscii, h, ih]
    · simp [splitAtNonAscii, h]

theorem splitAtNonAscii_some_mem {t rest : Token}
    (h : splitAtNonAscii t = some rest) : ∃ c ∈ t, isAscii c = false := by
  induction t generalizing rest with
  | nil => simp [splitAtNonAscii] at h
  | cons c cs ih =>
    rw [splitAtNonAscii] at h
    by_cases hb : isAscii c = true
    · rw [if_pos hb] at h
      obtain ⟨d, hd, hdf⟩ := ih h
      exact ⟨d, List.mem_cons_of_mem _ hd, hdf⟩
    · rw [Bool.not_eq_true] at hb
      exact ⟨c, List.mem_cons_self _ _, hb⟩

theorem not_any_to_all_ascii {t : Token}
    (hg : ¬ (t.any (fun c => !(isAscii c)) = true)) :
    t.all (fun c => isAscii c) = true := by
  rw [Bool.not_eq_true, List.any_eq_false] at hg
  rw [List.all_eq_true]
  intro c hc
  have h1 := hg c hc
  show isAscii c = true
  cases hb : isAscii c
  · rw [hb] at h1
    simp at h1
  · rfl

theorem unidecode_token_id {t : Cow}
    (h : (content t).all (fun c => isAscii c) = true) :
    unidecode_token t = t := by
  have hcond : ¬ ((content t).any (fun c => !(isAscii c)) = true) := by
    intro hany
    rw [List.any_eq_true] at hany
    obtain ⟨c, hc, hcn⟩ := hany
    have h2 := List.all_eq_true.mp h c hc
    rw [h2] at hcn
    simp at hcn
  rw [unidecode_token, if_neg hcond]

theorem content_unidecode_token_ascii (t : Cow) :
    (content (unidecode_token t)).all (fun c => isAscii c) = true := by
  by_cases hg : (content t).any (fun c => !(isAscii c)) = true
  · rw [unidecode_token, if_pos hg, content_owned]
    exact unidecode_ascii _
  · rw [unidecode_token, if_neg hg]
    exact not_any_to_all_ascii hg

theorem remove_non_ascii_id {t : Cow}
    (h : (content t).all (fun c => isAscii c) = true) :
    remove_token_non_ascii_chars t = t := by
  rw [remove_token_non_ascii_chars, (splitAtNonAscii_eq_none (content t)).mpr h]

theorem content_remove_non_ascii_ascii (t : Cow) :
    (content (remove_token_non_ascii_chars t)).all (fun c => isAscii c)
      = true := by
  rw [remove_token_non_ascii_chars]
  cases hsp : splitAtNonAscii (content t) with
  | none => exact (splitAtNonAscii_eq_none _).mp hsp
  | some rest =>
    rw [List.all_eq_true]
    intro c hc
    show isAscii c = true
    have hc2 : c ∈ rest.filter (fun c => isAscii c) := hc
    exact (List.mem_filter.mp hc2).2

theorem ascii_ws_rust_ws {c : Char} (h : is_ascii_whitespace c = true) :
    isRustWhitespace c = true := by
  rw [is_ascii_whitespace] at h
  simp only [Bool.or_eq_true, decide_eq_true_eq] at h
  rcases h with ((((h | h) | h) | h) | h) <;> subst h <;> decide

theorem rustTrim_length_lt {s : Token} {c : Char} (hL : s.getLast? = some c)
    (hw : isRustWhitespace c = true) : (rustTrim s).length < s.length := by
  have hs_ne : s ≠ [] := by
    intro h
    subst h
    simp at hL
  have hs_pos : 0 < s.length := List.length_pos.mpr hs_ne
  rw [rustTrim]
  by_cases hu : s.dropWhile isRustWhitespace = []
  · rw [hu]
    simpa using hs_pos
  · obtain ⟨pre, hpre⟩ := List.dropWhile_suffix (l := s) isRustWhitespace
    have hLast : (s.dropWhile isRustWhitespace).getLast? = some c := by
      rw [← hpre, List.getLast?_append] at hL
      cases hk : (s.dropWhile isRustWhitespace).getLast? with
      | none => exact absurd (List.getLast?_eq_none_iff.mp hk) hu
      | some a =>
        rw [hk] at hL
        simp only [Option.or_some] at hL
        exact hL
    have hHead : (s.dropWhile isRustWhitespace).reverse.head? = some c := by
      rw [List.head?_reverse]
      exact hLast
    cases hrev : (s.dropWhile isRustWhitespace).reverse with
    | nil =>
      rw [hrev] at hHead
      simp at hHead
    | cons a rest =>
      rw [hrev] at hHead
      simp only [List.head?_cons, Option.some.injEq] at hHead
      subst hHead
      rw [List.dropWhile_cons, if_pos hw]
      have h1 : (List.dropWhile isRustWhitespace rest).length ≤ rest.length :=
        (List.dropWhile_sublist _).length_le
      have h2 : rest.length + 1 = (s.dropWhile isRustWhitespace).length := by
        have h3 := congrArg List.length hrev
        rw [List.length_reverse, List.length_cons] at h3
        omega
      have h4 : (s.dropWhile isRustWhitespace).length ≤ s.length :=
        (List.dropWhile_sublist _).length_le
      rw [List.length_reverse]
      omega

theorem token_trim_id {t : Cow}
    (h : ∀ c, (content t).getLast? = some c → is_ascii_whitespace c = false) :
    token_trim t = t := by
  rw [token_trim]
  cases hL : (content t).getLast? with
  | none =>
    have hnil : content t = [] := List.getLast?_eq_none_iff.mp hL
    have hH : (content t).head? = none := by
      rw [hnil]
      rfl
    rw [hH]
  | some c =>
    have hw := h c hL
    cases hH : (content t).head? with
    | none => simp [hw]
    | some d => simp [hw]

theorem token_trim_of_last_ws {t : Cow} {c : Char}
    (hL : (content t).getLast? = some c)
    (hw : is_ascii_whitespace c = true) :
    token_trim t = Cow.owned (rustTrim (content t)) := by
  rw [token_trim, hL]
  cases hH : (content t).head? with
  | none => simp [hw]
  | some d => simp [hw]

theorem content_rtdp_sublist (t : Cow) :
    (content (remove_token_digit_and_punctuation t)).Sublist (content t) := by
  rw [remove_token_digit_and_punctuation]
  split
  · rw [content_owned]
    have h1 := (List.filter_sublist (p := fun ic =>
        (!is_ascii_punctuation ic.2 && !ic.2.isDigit) ||
        (ic.2 = '-' && 0 < ic.1 && ic.1 < byteLen (content t)))
      (content t).enum).map (fun ic => ic.2)
    have h2 : ((content t).enum.map (fun ic => ic.2)) = content t := by
      have h3 : ((content t).enum.map (fun ic => ic.2)) =
          ((content t).enum.map Prod.snd) := rfl
      rw [h3, List.enum_map_snd]
    rwa [h2] at h1
  · exact List.Sublist.refl _

theorem content_rtdp_facts {t : Cow} {c : Char}
    (hc : c ∈ content (remove_token_digit_and_punctuation t)) :
    c.isDigit = false ∧ (is_ascii_punctuation c = true → c = '-') := by
  rw [remove_token_digit_and_punctuation] at hc
  by_cases hg : (content t).any
      (fun c => c.isDigit || is_ascii_punctuation c) = true
  · rw [if_pos hg, content_owned] at hc
    obtain ⟨ic, hicf, rfl⟩ := List.mem_map.mp hc
    have hP := (List.mem_filter.mp hicf).2
    rw [Bool.or_eq_true] at hP
    rcases hP with hP | hP
    · rw [Bool.and_eq_true] at hP
      have hd : ic.2.isDigit = false := by
        have h1 := hP.2
        rwa [Bool.not_eq_true'] at h1
      have hp : is_ascii_punctuation ic.2 = false := by
        have h1 := hP.1
        rwa [Bool.not_eq_true'] at h1
      refine ⟨hd, fun hcon => ?_⟩
      rw [hp] at hcon
      cases hcon
    · rw [Bool.and_eq_true, Bool.and_eq_true] at hP
      have heq : ic.2 = '-' := of_decide_eq_true hP.1.1
      rw [heq]
      exact ⟨by decide, fun _ => rfl⟩
  · rw [if_neg hg] at hc
    rw [Bool.not_eq_true, List.any_eq_false] at hg
    have h2 := hg c hc
    rw [Bool.not_eq_true, Bool.or_eq_false_iff] at h2
    refine ⟨h2.1, fun hcon => ?_⟩
    rw [h2.2] at hcon
    cases hcon

theorem all_content_rtdp {p : Char → Bool} {t : Cow}
    (h : (content t).all p = true) :
    (content (remove_token_digit_and_punctuation t)).all p = true := by
  rw [List.all_eq_true] at h ⊢
  intro c hc
  exact h c (List.Sublist.mem hc (content_rtdp_sublist t))

theorem mem_rustTrim {c : Char} {t : Token} (h : c ∈ rustTrim t) : c ∈ t := by
  rw [rustTrim, List.mem_reverse] at h
  have h2 := List.Sublist.mem h (List.dropWhile_sublist isRustWhitespace)
  rw [List.mem_reverse] at h2
  exact List.Sublist.mem h2 (List.dropWhile_sublist isRustWhitespace)

theorem mem_content_token_trim {c : Char} {t : Cow}
    (h : c ∈ content (token_trim t)) : c ∈ content t := by
  cases hL : (content t).getLast? with
  | none =>
    rwa [token_trim_id (fun a ha => by rw [hL] at ha; cases ha)] at h
  | some a =>
    by_cases hw : is_ascii_whitespace a = true
    · rw [token_trim_of_last_ws hL hw, content_owned] at h
      exact mem_rustTrim h
    · rw [Bool.not_eq_true] at hw
      rw [token_trim_id (fun b hb => ?_)] at h
      · exact h
      · rw [hL] at hb
        cases hb
        exact hw

theorem all_content_token_trim {p : Char → Bool} {t : Cow}
    (h : (content t).all p = true) :
    (content (token_trim t)).all p = true := by
  rw [List.all_eq_true] at h ⊢
  intro c hc
  exact h c (mem_content_token_trim hc)

theorem pipeText_content_invariant (t : Cow) :
    (content (pipeText t)).all (fun c => isAscii c && !c.isDigit &&
      (!is_ascii_punctuation c || c = '-')) = true := by
  rw [pipeText]
  have h2 := content_unidecode_token_ascii (token_to_lowercase t)
  rw [remove_non_ascii_id h2]
  apply all_content_token_trim
  rw [List.all_eq_true]
  intro c hc
  have hfacts := content_rtdp_facts hc
  have hascii := List.all_eq_true.mp
    (all_content_rtdp (p := fun c => isAscii c) h2) c hc
  show (isAscii c && !c.isDigit && (!is_ascii_punctuation c || c = '-'))
    = true
  rw [Bool.and_eq_true, Bool.and_eq_true]
  refine ⟨⟨hascii, ?_⟩, ?_⟩
  · rw [hfacts.1]
    rfl
  · by_cases hp : is_ascii_punctuation c = true
    · rw [hfacts.2 hp]
      decide
    · rw [Bool.not_eq_true] at hp
      rw [hp]
      rfl

theorem pipeAuthor_content_ascii (t : Cow) :
    (content (pipeAuthor t)).all (fun c => isAscii c) = true := by
  rw [pipeAuthor]
  have h2 := content_unidecode_token_ascii
    (remove_token_digit_and_punctuation (token_to_lowercase t))
  rw [remove_non_ascii_id h2]
  exact all_content_token_trim h2

theorem canonical_parts {n : Nat} {t : Token} (h : canonicalToken n t = true) :
    n < byteLen t ∧
    t.all (fun c => isAscii c && !c.isDigit && !(c.isAlpha && !c.isLower))
      = true ∧
    t.enum.all (fun ic => !is_ascii_punctuation ic.2 ||
      (ic.2 = '-' && decide (0 < ic.1))) = true ∧
    (match t.getLast? with
     | none => true
     | some c => !is_ascii_whitespace c) = true := by
  rw [canonicalToken] at h
  rw [Bool.and_eq_true, Bool.and_eq_true, Bool.and_eq_true] at h
  exact ⟨of_decide_eq_true h.1.1.1, h.1.1.2, h.1.2, h.2⟩

theorem canonical_ascii {n : Nat} {t : Token} (h : canonicalToken n t = true) :
    t.all (fun c => isAscii c) = true := by
  have hall := (canonical_parts h).2.1
  rw [List.all_eq_true] at hall ⊢
  intro c hc
  have h2 := hall c hc
  rw [Bool.and_eq_true, Bool.and_eq_true] at h2
  exact h2.1.1

theorem canonical_no_upper {n : Nat} {t : Token}
    (h : canonicalToken n t = true) :
    t.all (fun c => !(c.isAlpha && !c.isLower)) = true := by
  have hall := (canonical_parts h).2.1
  rw [List.all_eq_true] at hall ⊢
  intro c hc
  have h2 := hall c hc
  rw [Bool.and_eq_true] at h2
  exact h2.2

theorem token_to_lowercase_id {t : Cow}
    (h : (content t).all (fun c => !(c.isAlpha && !c.isLower)) = true) :
    token_to_lowercase t = t := by
  have hcond : ¬ (((content t).filter (fun c => c.isAlpha)).any
      (fun c => !c.isLower) = true) := by
    intro hany
    obtain ⟨c, hcf, hcl⟩ := List.any_eq_true.mp hany
    obtain ⟨hcs, hca⟩ := List.mem_filter.mp hcf
    have h2 := List.all_eq_true.mp h c hcs
    rw [Bool.not_eq_true', Bool.and_eq_false_iff] at h2
    rcases h2 with h2 | h2
    · rw [hca] at h2
      cases h2
    · rw [h2] at hcl
      cases hcl
  rw [token_to_lowercase.eq_def, if_neg hcond]

theorem rtdp_content_id {t : Cow} {n : Nat}
    (h : canonicalToken n (content t) = true) :
    content (remove_token_digit_and_punctuation t) = content t := by
  obtain ⟨-, hall, henum, -⟩ := canonical_parts h
  rw [remove_token_digit_and_punctuation]
  by_cases hg : (content t).any
      (fun c => c.isDigit || is_ascii_punctuation c) = true
  · rw [if_pos hg, content_owned]
    have hfe : (content t).enum.filter (fun ic =>
        (!is_ascii_punctuation ic.2 && !ic.2.isDigit) ||
        (ic.2 = '-' && 0 < ic.1 && ic.1 < byteLen (content t)))
        = (content t).enum := by
      rw [List.filter_eq_self]
      intro ic hic
      have hgot := List.mem_enum_iff_getElem?.mp hic
      have hlt : ic.1 < (content t).length := by
        cases hord : Nat.lt_or_ge ic.1 (content t).length with
        | inl h1 => exact h1
        | inr h1 =>
          rw [List.getElem?_eq_none (by omega)] at hgot
          cases hgot
      have hmem2 : ic.2 ∈ content t := by
        have h1 := List.getElem?_eq_getElem hlt
        rw [h1] at hgot
        have h2 : (content t)[ic.1] = ic.2 := by
          injection hgot
        rw [← h2]
        exact (content t).getElem_mem hlt
      have hdigit : ic.2.isDigit = false := by
        have h2 := List.all_eq_true.mp hall _ hmem2
        rw [Bool.and_eq_true, Bool.and_eq_true, Bool.not_eq_true'] at h2
        exact h2.1.2
      have hp := List.all_eq_true.mp henum _ hic
      rw [Bool.or_eq_true] at hp
      rcases hp with hp | hp
      · rw [Bool.or_eq_true, Bool.and_eq_true]
        left
        refine ⟨hp, ?_⟩
        rw [hdigit]
        rfl
      · rw [Bool.and_eq_true] at hp
        rw [Bool.or_eq_true]
        right
        rw [Bool.and_eq_true, Bool.and_eq_true]
        refine ⟨⟨hp.1, hp.2⟩, ?_⟩
        exact decide_eq_true (lt_of_lt_of_le hlt (length_le_byteLen _))
    rw [hfe]
    have h3 : ((content t).enum.map (fun ic => ic.2)) =
        ((content t).enum.map Prod.snd) := rfl
    rw [h3, List.enum_map_snd]
  · rw [if_neg hg]

theorem canonical_trim_id {t : Cow} {n : Nat}
    (h : canonicalToken n (content t) = true) : token_trim t = t := by
  obtain ⟨-, -, -, hlast⟩ := canonical_parts h
  refine token_trim_id (fun c hc => ?_)
  rw [hc] at hlast
  rwa [Bool.not_eq_true'] at hlast

theorem pipeText_content_id {t : Cow} {n : Nat}
    (h : canonicalToken n (content t) = true) :
    content (pipeText t) = content t := by
  have hascii := canonical_ascii h
  have hnoup := canonical_no_upper h
  rw [pipeText, token_to_lowercase_id hnoup, unidecode_token_id hascii,
    remove_non_ascii_id hascii]
  have hrt := rtdp_content_id h
  have htrim : token_trim (remove_token_digit_and_punctuation t) =
      remove_token_digit_and_punctuation t := by
    refine token_trim_id (fun c hc => ?_)
    rw [hrt] at hc
    obtain ⟨-, -, -, hlast⟩ := canonical_parts h
    rw [hc] at hlast
    rwa [Bool.not_eq_true'] at hlast
  rw [htrim, hrt]

theorem pipeAuthor_content_id {t : Cow} {n : Nat}
    (h : canonicalToken n (content t) = true) :
    content (pipeAuthor t) = content t := by
  have hascii := canonical_ascii h
  have hnoup := canonical_no_upper h
  have hrt := rtdp_content_id h
  rw [pipeAuthor, token_to_lowercase_id hnoup,
    unidecode_token_id (by rw [hrt]; exact hascii),
    remove_non_ascii_id (by rw [hrt]; exact hascii)]
  have htrim : token_trim (remove_token_digit_and_punctuation t) =
      remove_token_digit_and_punctuation t := by
    refine token_trim_id (fun c hc => ?_)
    rw [hrt] at hc
    obtain ⟨-, -, -, hlast⟩ := canonical_parts h
    rw [hc] at hlast
    rwa [Bool.not_eq_true'] at hlast
  rw [htrim, hrt]

theorem canonical_no_punct_prefix {n : Nat} {t : Token}
    (h : canonicalToken n t = true) {p : Token} {ch : Char} {pr : Token}
    (hp : p = ch :: pr) (hchp : is_ascii_punctuation ch = true) :
    p.isPrefixOf t = false := by
  cases hb : p.isPrefixOf t
  · rfl
  · exfalso
    obtain ⟨rest, hrest⟩ := List.isPrefixOf_iff_prefix.mp hb
    have h0 : t[0]? = some ch := by
      rw [← hrest, hp]
      simp
    have hic : (0, ch) ∈ t.enum := List.mem_enum_iff_getElem?.mpr h0
    obtain ⟨-, -, henum, -⟩ := canonical_parts h
    have hpp := List.all_eq_true.mp henum _ hic
    rw [Bool.or_eq_true] at hpp
    rcases hpp with hpp | hpp
    · rw [hchp] at hpp
      cases hpp
    · rw [Bool.and_eq_true] at hpp
      have h2 := hpp.2
      simp at h2

theorem canonical_not_strong_punct {n : Nat} {t : Token}
    (h : canonicalToken n t = true) {ch : Char}
    (hchp : is_ascii_punctuation ch = true) (hchd : ch ≠ '-') :
    endsWithChar ch t = false := by
  rw [endsWithChar]
  apply decide_eq_false
  intro hL
  obtain ⟨-, -, henum, -⟩ := canonical_parts h
  rw [List.getLast?_eq_getElem?] at hL
  have hic : (t.length - 1, ch) ∈ t.enum := List.mem_enum_iff_getElem?.mpr hL
  have hpp := List.all_eq_true.mp henum _ hic
  rw [Bool.or_eq_true] at hpp
  rcases hpp with hpp | hpp
  · rw [hchp] at hpp
    cases hpp
  · rw [Bool.and_eq_true] at hpp
    exact hchd (of_decide_eq_true hpp.1)

theorem canonical_nonempty {n : Nat} {t : Token}
    (h : canonicalToken n t = true) : t.isEmpty = false := by
  have hlen := (canonical_parts h).1
  cases ht : t with
  | nil =>
    rw [ht] at hlen
    simp [byteLen] at hlen
  | cons a as => rfl

theorem min_length_retain_id {ts : List Cow}
    (h : ∀ x ∈ ts, canonicalToken 3 (content x) = true) :
    min_length_retain 3 ts = ts := by
  rw [min_length_retain, List.filter_eq_self]
  intro x hx
  have hlen := (canonical_parts (h x hx)).1
  show (!decide (byteLen (content x) ≤ 3)) = true
  rw [decide_eq_false (by omega)]
  rfl

theorem purge_pipeText_id {ts : List Cow}
    (h : ∀ x ∈ ts, canonicalToken 3 (content x) = true) :
    purge_empty_tokens (ts.map pipeText) = ts.map pipeText := by
  rw [purge_empty_tokens, List.filter_eq_self]
  intro x hx
  obtain ⟨pre, hpre, rfl⟩ := List.mem_map.mp hx
  show (!(content (pipeText pre)).isEmpty) = true
  rw [pipeText_content_id (h pre hpre), canonical_nonempty (h pre hpre)]
  rfl

theorem purge_pipeAuthor_id {ts : List Cow}
    (h : ∀ x ∈ ts, canonicalToken 3 (content x) = true) :
    purge_empty_tokens (ts.map pipeAuthor) = ts.map pipeAuthor := by
  rw [purge_empty_tokens, List.filter_eq_self]
  intro x hx
  obtain ⟨pre, hpre, rfl⟩ := List.mem_map.mp hx
  show (!(content (pipeAuthor pre)).isEmpty) = true
  rw [pipeAuthor_content_id (h pre hpre), canonical_nonempty (h pre hpre)]
  rfl

theorem canonical_delims_id {ts : List Cow}
    (h : ∀ x ∈ ts, canonicalToken 3 (content x) = true)
    {op cl : String} {ch : Char} (hop : str op = ch :: [])
    (hchp : is_ascii_punctuation ch = true) :
    remove_tokens_between_delimiters (str op, str cl) ts = ts := by
  refine rtbd_no_start (position_eq_none (fun x hx => ?_))
  show (str op, str cl).1.isPrefixOf (content x) = false
  exact canonical_no_punct_prefix (h x hx) hop hchp

theorem text_clean_content_id {ts : List Cow}
    (h : ∀ x ∈ ts, canonicalToken 3 (content x) = true) :
    (TextCleaner.clean ⟨ts, 3⟩).tokens.map content = ts.map content := by
  show (purge_empty_tokens ((min_length_retain 3 ts).map pipeText)).map content
    = ts.map content
  rw [min_length_retain_id h, purge_pipeText_id h, List.map_map]
  exact List.map_congr_left (fun x hx => pipeText_content_id (h x hx))

theorem title_clean_content_id {ts : List Cow}
    (h : ∀ x ∈ ts, canonicalToken 3 (content x) = true) :
    (TitleCleaner.clean ⟨ts, 3⟩).tokens.map content = ts.map content := by
  have hpos : position (fun t => endsWithChar '.' (content t) ||
      endsWithChar ':' (content t) || endsWithChar '?' (content t) ||
      endsWithChar '!' (content t)) ts = none := by
    apply position_eq_none
    intro x hx
    show (endsWithChar '.' (content x) || endsWithChar ':' (content x) ||
      endsWithChar '?' (content x) || endsWithChar '!' (content x)) = false
    rw [canonical_not_strong_punct (h x hx) (by decide) (by decide),
      canonical_not_strong_punct (h x hx) (by decide) (by decide),
      canonical_not_strong_punct (h x hx) (by decide) (by decide),
      canonical_not_strong_punct (h x hx) (by decide) (by decide)]
    rfl
  have hsplit : tokens_split_at_strong_punctuation ts = ts := by
    rw [tokens_split_at_strong_punctuation, hpos]
  show (purge_empty_tokens ((min_length_retain 3
      (remove_tokens_between_delimiters (str "[", str "]")
        (remove_tokens_between_delimiters (str "(", str ")")
          (tokens_split_at_strong_punctuation ts)))).map pipeText)).map content
    = ts.map content
  rw [hsplit, canonical_delims_id h (by rfl) (by decide),
    canonical_delims_id h (by rfl) (by decide),
    min_length_retain_id h, purge_pipeText_id h, List.map_map]
  exact List.map_congr_left (fun x hx => pipeText_content_id (h x hx))

theorem author_clean_content_id {ts : List Cow}
    (h : ∀ x ∈ ts, canonicalToken 3 (content x) = true) :
    (AuthorCleaner.clean ⟨ts⟩).tokens.map content = ts.map content := by
  show (purge_empty_tokens ((remove_tokens_between_delimiters
      (str "[", str "]") (remove_tokens_between_delimiters
        (str "(", str ")") ts)).map pipeAuthor)).map content
    = ts.map content
  rw [canonical_delims_id h (by rfl) (by decide),
    canonical_delims_id h (by rfl) (by decide),
    purge_pipeAuthor_id h, List.map_map]
  exact List.map_congr_left (fun x hx => pipeAuthor_content_id (h x hx))

/-! ## Claim theorems -/

/-- C1 (counterexample): `clean()` is not idempotent.  On `["ab12"]` the
`TextCleaner` keeps the token through the length filter (byte length
4 > 3), the digit strip shrinks it to `"ab"`, and a second `clean()` then
discards it through the length filter, so `clean(clean(S)) ≠ clean(S)`. -/
theorem clean_not_idempotent :
    ((TextCleaner.new [str "ab12"]).clean).tokens.map content = [str "ab"] ∧
    (((TextCleaner.new [str "ab12"]).clean).clean).tokens.map content = [] := by
  decide

/-- C1 (amended): `clean()` is idempotent on sequences of canonical tokens
(byte length above the default threshold 3, pure ASCII, no ASCII uppercase,
no digit, punctuation restricted to non-leading hyphens, last character not
ASCII whitespace): for each cleaner variant a second `clean()` leaves the
token strings of the first `clean()` unchanged.  In general idempotence
fails, as the counterexample records. -/
theorem clean_idempotent_on_canonical :
    ∀ S : List Token, S.all (fun t => canonicalToken 3 t) = true →
      ((((TextCleaner.new S).clean).clean).tokens.map content =
        ((TextCleaner.new S).clean).tokens.map content) ∧
      ((((TitleCleaner.new S).clean).clean).tokens.map content =
        ((TitleCleaner.new S).clean).tokens.map content) ∧
      ((((AuthorCleaner.new S).clean).clean).tokens.map content =
        ((AuthorCleaner.new S).clean).tokens.map content) := by
  intro S hS
  have hS2 := List.all_eq_true.mp hS
  have hb : ∀ x ∈ S.map Cow.borrowed, canonicalToken 3 (content x) = true := by
    intro x hx
    obtain ⟨a, ha, rfl⟩ := List.mem_map.mp hx
    exact hS2 a ha
  have hmapb : (S.map Cow.borrowed).map content = S := by
    rw [List.map_map]
    have h1 : ∀ a ∈ S, (content ∘ Cow.borrowed) a = id a := fun a _ => rfl
    rw [List.map_congr_left h1, List.map_id]
  refine ⟨?_, ?_, ?_⟩
  · have e1 : (TextCleaner.new S).clean.tokens.map content = S := by
      calc (TextCleaner.new S).clean.tokens.map content
          = (TextCleaner.clean ⟨S.map Cow.borrowed, 3⟩).tokens.map content :=
            rfl
        _ = (S.map Cow.borrowed).map content := text_clean_content_id hb
        _ = S := hmapb
    have h2 : ∀ x ∈ (TextCleaner.new S).clean.tokens,
        canonicalToken 3 (content x) = true := by
      intro x hx
      have hcm : content x ∈ (TextCleaner.new S).clean.tokens.map content :=
        List.mem_map_of_mem content hx
      rw [e1] at hcm
      exact hS2 _ hcm
    calc ((TextCleaner.new S).clean).clean.tokens.map content
        = (TextCleaner.clean
            ⟨(TextCleaner.new S).clean.tokens, 3⟩).tokens.map content := rfl
      _ = (TextCleaner.new S).clean.tokens.map content :=
          text_clean_content_id h2
  · have e1 : (TitleCleaner.new S).clean.tokens.map content = S := by
      calc (TitleCleaner.new S).clean.tokens.map content
          = (TitleCleaner.clean ⟨S.map Cow.borrowed, 3⟩).tokens.map content :=
            rfl
        _ = (S.map Cow.borrowed).map content := title_clean_content_id hb
        _ = S := hmapb
    have h2 : ∀ x ∈ (TitleCleaner.new S).clean.tokens,
        canonicalToken 3 (content x) = true := by
      intro x hx
      have hcm : content x ∈ (TitleCleaner.new S).clean.tokens.map content :=
        List.mem_map_of_mem content hx
      rw [e1] at hcm
      exact hS2 _ hcm
    calc ((TitleCleaner.new S).clean).clean.tokens.map content
        = (TitleCleaner.clean
            ⟨(TitleCleaner.new S).clean.tokens, 3⟩).tokens.map content := rfl
      _ = (TitleCleaner.new S).clean.tokens.map content :=
          title_clean_content_id h2
  · have e1 : (AuthorCleaner.new S).clean.tokens.map content = S := by
      calc (AuthorCleaner.new S).clean.tokens.map content
          = (AuthorCleaner.clean ⟨S.map Cow.borrowed⟩).tokens.map content :=
            rfl
        _ = (S.map Cow.borrowed).map content := author_clean_content_id hb
        _ = S := hmapb
    have h2 : ∀ x ∈ (AuthorCleaner.new S).clean.tokens,
        canonicalToken 3 (content x) = true := by
      intro x hx
      have hcm : content x ∈ (AuthorCleaner.new S).clean.tokens.map content :=
        List.mem_map_of_mem content hx
      rw [e1] at hcm
      exact hS2 _ hcm
    calc ((AuthorCleaner.new S).clean).clean.tokens.map content
        = (AuthorCleaner.clean
            ⟨(AuthorCleaner.new S).clean.tokens⟩).tokens.map content := rfl
      _ = (AuthorCleaner.new S).clean.tokens.map content :=
          author_clean_content_id h2

/-- Witness for C1 (amended): the canonical sequence `["lorem"]`. -/
theorem clean_idempotent_on_canonical_witness :
    ([str "lorem"].all (fun t => canonicalToken 3 t) = true) ∧
    ((((TextCleaner.new [str "lorem"]).clean).clean).tokens.map content =
      ((TextCleaner.new [str "lorem"]).clean).tokens.map content) :=
  ⟨by decide,
    (clean_idempotent_on_canonical [str "lorem"] (by decide)).1⟩

/-- C2: `remove_tokens_between_delimiters` repeatedly finds the first token
starting with the start marker, scans forward from that position (inclusive)
for the first token ending with the end marker, and removes the inclusive
range; if no end token is found it stops without removing anything further.
The two concrete scenarios of the specification evaluate as claimed. -/
theorem remove_tokens_between_delimiters_spec :
    (∀ (d : Token × Token) (ts : List Cow),
      position (fun t => d.1.isPrefixOf (content t)) ts = none →
      remove_tokens_between_delimiters d ts = ts) ∧
    (∀ (d : Token × Token) (ts : List Cow) (s : Nat),
      position (fun t => d.1.isPrefixOf (content t)) ts = some s →
      position (fun t => d.2.isSuffixOf (content t)) (ts.drop s) = none →
      remove_tokens_between_delimiters d ts = ts) ∧
    (∀ (d : Token × Token) (ts : List Cow) (s e : Nat),
      position (fun t => d.1.isPrefixOf (content t)) ts = some s →
      position (fun t => d.2.isSuffixOf (content t)) (ts.drop s) = some e →
      remove_tokens_between_delimiters d ts =
        remove_tokens_between_delimiters d (ts.take s ++ ts.drop (s + e + 1))) ∧
    remove_tokens_between_delimiters (str "(", str ")")
        ([str "lorem", str "(ipsum", str "dolor)", str "sit",
          str "amet"].map Cow.borrowed) =
      [str "lorem", str "sit", str "amet"].map Cow.borrowed ∧
    remove_tokens_between_delimiters (str "(", str ")")
        ([str "a", str "(b", str "c"].map Cow.borrowed) =
      [str "a", str "(b", str "c"].map Cow.borrowed := by
  exact ⟨fun d ts h => rtbd_no_start h,
    fun d ts s h1 h2 => rtbd_no_end h1 h2,
    fun d ts s e h1 h2 => rtbd_step h1 h2, by decide, by decide⟩

/-- Witness for C2: applies the unterminated-start case to
`["a", "(b", "c"]`. -/
theorem remove_tokens_between_delimiters_spec_witness :
    position (fun t => (str "(").isPrefixOf (content t))
      ([str "a", str "(b", str "c"].map Cow.borrowed) = some 1 ∧
    position (fun t => (str ")").isSuffixOf (content t))
      (([str "a", str "(b", str "c"].map Cow.borrowed).drop 1) = none ∧
    remove_tokens_between_delimiters (str "(", str ")")
        ([str "a", str "(b", str "c"].map Cow.borrowed) =
      [str "a", str "(b", str "c"].map Cow.borrowed :=
  ⟨by decide, by decide,
    remove_tokens_between_delimiters_spec.2.1 (str "(", str ")") _ 1
      (by decide) (by decide)⟩

/-- C5 (evaluation at the failing input): the digit/punctuation strip keeps
`"well-known"` unchanged and strips the leading hyphen of `"-known"`, but —
because the source compares the character index with the token's byte
length (`*index < token.len()`), a vacuously true bound — it also keeps the
*trailing* hyphen of `"known-"`, which the claim says is removed. -/
theorem remove_digit_punctuation_hyphen_eval :
    content (remove_token_digit_and_punctuation
      (Cow.borrowed (str "well-known"))) = str "well-known" ∧
    content (remove_token_digit_and_punctuation
      (Cow.borrowed (str "-known"))) = str "known" ∧
    content (remove_token_digit_and_punctuation
      (Cow.borrowed (str "known-"))) = str "known-" := by
  decide

/-- C6: subtitle truncation cuts the sequence strictly before the first
token ending in `.`, `:`, `?` or `!` and leaves it unchanged when no such
token exists; end to end, `TitleCleaner` with default settings cleans
`["Lorem","ipsum","dolor",":","sit","amet"]` to
`["lorem","ipsum","dolor"]`. -/
theorem subtitle_truncation_spec :
    (∀ ts : List Cow,
      position (fun t => endsWithChar '.' (content t) ||
        endsWithChar ':' (content t) || endsWithChar '?' (content t) ||
        endsWithChar '!' (content t)) ts = none →
      tokens_split_at_strong_punctuation ts = ts) ∧
    (∀ (ts : List Cow) (i : Nat),
      position (fun t => endsWithChar '.' (content t) ||
        endsWithChar ':' (content t) || endsWithChar '?' (content t) ||
        endsWithChar '!' (content t)) ts = some i →
      tokens_split_at_strong_punctuation ts = ts.take i) ∧
    ((TitleCleaner.new [str "Lorem", str "ipsum", str "dolor", str ":",
        str "sit", str "amet"]).clean.tokens.map content =
      [str "lorem", str "ipsum", str "dolor"]) := by
  refine ⟨?_, ?_, by decide⟩
  · intro ts h
    simp only [tokens_split_at_strong_punctuation, h]
  · intro ts i h
    simp only [tokens_split_at_strong_punctuation, h]

/-- Witness for C6: the no-strong-punctuation case on `["lorem"]`. -/
theorem subtitle_truncation_spec_witness :
    position (fun t => endsWithChar '.' (content t) ||
      endsWithChar ':' (content t) || endsWithChar '?' (content t) ||
      endsWithChar '!' (content t)) [Cow.borrowed (str "lorem")] = none ∧
    tokens_split_at_strong_punctuation [Cow.borrowed (str "lorem")] =
      [Cow.borrowed (str "lorem")] :=
  ⟨by decide, subtitle_truncation_spec.1 [Cow.borrowed (str "lorem")]
    (by decide)⟩

/-- C8: every token-removing sequence operation — the minimum-length
filter, the empty-token purge, balanced-delimiter span removal and subtitle
truncation — returns a sublist of its input, so surviving tokens keep their
original relative order. -/
theorem filtering_preserves_order :
    (∀ (n : Nat) (ts : List Cow), (min_length_retain n ts).Sublist ts) ∧
    (∀ ts : List Cow, (purge_empty_tokens ts).Sublist ts) ∧
    (∀ (d : Token × Token) (ts : List Cow),
      (remove_tokens_between_delimiters d ts).Sublist ts) ∧
    (∀ ts : List Cow, (tokens_split_at_strong_punctuation ts).Sublist ts) := by
  refine ⟨?_, ?_, ?_, ?_⟩
  · intro n ts
    exact List.filter_sublist ts
  · intro ts
    exact List.filter_sublist ts
  · intro d ts
    exact rtbdAux_sublist _ _ _
  · intro ts
    simp only [tokens_split_at_strong_punctuation]
    split
    · exact List.Sublist.refl ts
    · exact List.take_sublist _ ts

/-- C9 (evaluation at the failing input): `remove_token_non_ascii_chars`
reuses the iterator consumed by its `chars.any(..)` guard, so on `"aéb"` it
returns `"b"` — the ASCII character `'a'` preceding the first non-ASCII
character is lost, contradicting the claim (and the function's own doc)
that exactly the non-ASCII characters are removed. -/
theorem remove_non_ascii_chars_eval :
    remove_token_non_ascii_chars (Cow.borrowed (str "aéb")) =
      Cow.owned (str "b") ∧ str "b" ≠ str "ab" := by
  decide

/-- C10 (evaluation at the failing input): `token_trim` only ever examines
the last character (the source's first-character match arm is unreachable),
so `" a"` keeps its leading whitespace, while a trailing-whitespace token
`"ab "` is trimmed on both sides. -/
theorem token_trim_leading_whitespace_eval :
    token_trim (Cow.borrowed (str " a")) = Cow.borrowed (str " a") ∧
    token_trim (Cow.borrowed (str " ab ")) = Cow.owned (str "ab") := by
  decide

/-- C4 (counterexample): the length filter compares *byte* length, not
character length.  `"éé"` has character length 2 ≤ 3 but byte length 4, so
it survives the default filter and `TextCleaner` outputs `["ee"]`, while
the claim demands that only tokens of character length ≥ 4 survive. -/
theorem min_length_filter_char_length_counterexample :
    (str "éé").length = 2 ∧
    min_length_retain 3 [Cow.borrowed (str "éé")] =
      [Cow.borrowed (str "éé")] ∧
    ((TextCleaner.new [str "éé"]).clean).tokens.map content = [str "ee"] := by
  decide

/-- C7 (counterexample): the digit/punctuation strip converts a borrowed
`"a-b"` into an owned value although its output equals its input — the
transform's guard fires on the interior hyphen, violating the claimed
allocate-only-when-different invariant. -/
theorem allocation_avoidance_counterexample :
    remove_token_digit_and_punctuation (Cow.borrowed (str "a-b")) =
      Cow.owned (str "a-b") := by
  decide

/-- C4 (amended): the minimum-length filter of `TextCleaner::clean` and
`TitleCleaner::clean` discards exactly the tokens whose UTF-8 *byte* length
is `≤` the threshold (inclusive); on all-ASCII tokens the byte length
coincides with the character length, so there the default threshold keeps
exactly the tokens of character length ≥ 4. -/
theorem min_length_filter_byte_length :
    (∀ (n : Nat) (ts : List Cow),
      min_length_retain n ts =
        ts.filter (fun t => decide (n < byteLen (content t)))) ∧
    (∀ t : Token, t.all (fun c => isAscii c) = true → byteLen t = t.length) := by
  constructor
  · intro n ts
    rw [min_length_retain]
    apply List.filter_congr
    intro x _
    rw [← decide_not]
    exact decide_eq_decide.mpr Nat.not_le
  · intro t h
    exact byteLen_ascii h

/-- Witness for C4 (amended): the ASCII token `"lorem"`. -/
theorem min_length_filter_byte_length_witness :
    (str "lorem").all (fun c => isAscii c) = true ∧
    byteLen (str "lorem") = (str "lorem").length :=
  ⟨by decide, min_length_filter_byte_length.2 (str "lorem") (by decide)⟩

/-- C3 (counterexample): cleaned output is not always lowercase, and
`clean_author` output is not always digit-free: `clean_title ["Æneid"]`
yields `["AEneid"]` (lowercasing runs before transliteration and its guard
sees no ASCII uppercase in `"Æneid"`), and `clean_author ["a²bc"]` yields
`["a2bc"]` (the author pipeline strips digits before transliteration, which
then maps `²` to `2`). -/
theorem clean_entry_points_not_lowercase :
    clean_title [str "Æneid"] = [str "AEneid"] ∧
    ((str "AEneid").any (fun c => c.isAlpha && !c.isLower)) = true ∧
    clean_author [str "a²bc"] = [str "a2bc"] ∧
    ((str "a2bc").any (fun c => c.isDigit)) = true := by
  decide

/-- C7 (amended): the lowercase fold, transliteration, non-ASCII strip and
trim turn a borrowed token into an owned one only when the output string
differs from the input, and they leave a token already satisfying their
postcondition (no ASCII uppercase / all-ASCII / last character not ASCII
whitespace) untouched.  The digit/punctuation strip is the exception
recorded by the counterexample: it reallocates whenever any digit or
punctuation character is present, even if the content is unchanged. -/
theorem allocation_avoidance_amended :
    (∀ s : Token, token_to_lowercase (Cow.borrowed s) = Cow.borrowed s ∨
      content (token_to_lowercase (Cow.borrowed s)) ≠ s) ∧
    (∀ s : Token, unidecode_token (Cow.borrowed s) = Cow.borrowed s ∨
      content (unidecode_token (Cow.borrowed s)) ≠ s) ∧
    (∀ s : Token,
      remove_token_non_ascii_chars (Cow.borrowed s) = Cow.borrowed s ∨
      content (remove_token_non_ascii_chars (Cow.borrowed s)) ≠ s) ∧
    (∀ s : Token, token_trim (Cow.borrowed s) = Cow.borrowed s ∨
      content (token_trim (Cow.borrowed s)) ≠ s) ∧
    (∀ s : Token,
      (s.filter (fun c => c.isAlpha)).any (fun c => !c.isLower) = false →
      token_to_lowercase (Cow.borrowed s) = Cow.borrowed s) ∧
    (∀ s : Token, s.all (fun c => isAscii c) = true →
      unidecode_token (Cow.borrowed s) = Cow.borrowed s ∧
      remove_token_non_ascii_chars (Cow.borrowed s) = Cow.borrowed s) ∧
    (∀ s : Token,
      (∀ c, s.getLast? = some c → is_ascii_whitespace c = false) →
      token_trim (Cow.borrowed s) = Cow.borrowed s) := by
  refine ⟨?_, ?_, ?_, ?_, ?_, ?_, ?_⟩
  · intro s
    by_cases hg : (s.filter (fun c => c.isAlpha)).any (fun c => !c.isLower)
      = true
    · right
      rw [token_to_lowercase, content_borrowed, if_pos hg]
      show content (Cow.owned (to_lowercase s)) ≠ s
      rw [content_owned]
      exact to_lowercase_ne hg
    · left
      rw [token_to_lowercase, content_borrowed, if_neg hg]
  · intro s
    by_cases hg : s.any (fun c => !(isAscii c)) = true
    · right
      rw [unidecode_token, content_borrowed, if_pos hg, content_owned]
      intro heq
      have hall := unidecode_ascii s
      rw [heq] at hall
      obtain ⟨c, hc, hcn⟩ := List.any_eq_true.mp hg
      have h2 := List.all_eq_true.mp hall c hc
      rw [h2] at hcn
      simp at hcn
    · left
      rw [unidecode_token, content_borrowed, if_neg hg]
  · intro s
    cases hsp : splitAtNonAscii s with
    | none =>
      left
      rw [remove_token_non_ascii_chars, content_borrowed, hsp]
    | some rest =>
      right
      rw [remove_token_non_ascii_chars, content_borrowed, hsp, content_owned]
      intro heq
      obtain ⟨c, hc, hcf⟩ := splitAtNonAscii_some_mem hsp
      have hall : (rest.filter (fun c => isAscii c)).all
          (fun c => isAscii c) = true := by
        rw [List.all_eq_true]
        intro a ha
        exact (List.mem_filter.mp ha).2
      rw [heq] at hall
      have h2 := List.all_eq_true.mp hall c hc
      rw [hcf] at h2
      exact Bool.false_ne_true h2
  · intro s
    cases hL : s.getLast? with
    | none =>
      left
      refine token_trim_id (fun a ha => ?_)
      rw [content_borrowed, hL] at ha
      cases ha
    | some c =>
      by_cases hw : is_ascii_whitespace c = true
      · right
        rw [token_trim_of_last_ws (by rwa [content_borrowed]) hw,
          content_owned, content_borrowed]
        intro heq
        have hlt := rustTrim_length_lt hL (ascii_ws_rust_ws hw)
        rw [heq] at hlt
        exact Nat.lt_irrefl _ hlt
      · left
        refine token_trim_id (fun a ha => ?_)
        rw [content_borrowed, hL] at ha
        cases ha
        rwa [Bool.not_eq_true] at hw
  · intro s h
    have hcond : ¬ (((content (Cow.borrowed s)).filter
        (fun c => c.isAlpha)).any (fun c => !c.isLower) = true) := by
      rw [content_borrowed, h]
      simp
    rw [token_to_lowercase, if_neg hcond]
  · intro s h
    exact ⟨unidecode_token_id h, remove_non_ascii_id h⟩
  · intro s h
    exact token_trim_id h

/-- C3 (amended): `clean_title` and `clean_author` are total functions (the
embedding is total by construction); every `clean_title` output token is
nonempty, entirely ASCII, digit-free, and punctuation-free except hyphens;
every `clean_author` output token is nonempty and entirely ASCII.
Lowercasing is not guaranteed (see the counterexample), and for
`clean_author` digit/punctuation freedom is not guaranteed because its
strip runs before transliteration. -/
theorem clean_entry_points_output_invariant :
    (∀ input : List Token, (clean_title input).all (fun t => !t.isEmpty &&
      t.all (fun c => isAscii c && !c.isDigit &&
        (!is_ascii_punctuation c || c = '-'))) = true) ∧
    (∀ input : List Token, (clean_author input).all (fun t => !t.isEmpty &&
      t.all (fun c => isAscii c)) = true) := by
  constructor
  · intro input
    rw [List.all_eq_true]
    intro tk htk
    simp only [clean_title, TitleCleaner.clean, TitleCleaner.new] at htk
    obtain ⟨cow, hcow, rfl⟩ := List.mem_map.mp htk
    rw [purge_empty_tokens] at hcow
    obtain ⟨hmem, hne⟩ := List.mem_filter.mp hcow
    obtain ⟨pre, hpre, rfl⟩ := List.mem_map.mp hmem
    show (!(content (pipeText pre)).isEmpty &&
      (content (pipeText pre)).all (fun c => isAscii c && !c.isDigit &&
        (!is_ascii_punctuation c || c = '-'))) = true
    rw [Bool.and_eq_true]
    exact ⟨hne, pipeText_content_invariant pre⟩
  · intro input
    rw [List.all_eq_true]
    intro tk htk
    simp only [clean_author, AuthorCleaner.clean, AuthorCleaner.new] at htk
    obtain ⟨cow, hcow, rfl⟩ := List.mem_map.mp htk
    rw [purge_empty_tokens] at hcow
    obtain ⟨hmem, hne⟩ := List.mem_filter.mp hcow
    obtain ⟨pre, hpre, rfl⟩ := List.mem_map.mp hmem
    show (!(content (pipeAuthor pre)).isEmpty &&
      (content (pipeAuthor pre)).all (fun c => isAscii c)) = true
    rw [Bool.and_eq_true]
    exact ⟨hne, pipeAuthor_content_ascii pre⟩

/-- Witness for C7 (amended): the all-ASCII token `"lorem"` is left
untouched by transliteration and the non-ASCII strip. -/
theorem allocation_avoidance_amended_witness :
    (str "lorem").all (fun c => isAscii c) = true ∧
    unidecode_token (Cow.borrowed (str "lorem")) =
      Cow.borrowed (str "lorem") ∧
    remove_token_non_ascii_chars (Cow.borrowed (str "lorem")) =
      Cow.borrowed (str "lorem") :=
  ⟨by decide, allocation_avoidance_amended.2.2.2.2.2.1 (str "lorem")
    (by decide)⟩

end BCleaner
